import Mathlib

/-!
Verification of the `lsmtree` key-value store (Go) against its
natural-language specification, via a shallow embedding in Lean 4.

Bytes (`[]byte` in Go) are modelled as `List Nat`; Go `nil` slices that are
semantically "no value / tombstone" are modelled as `none : Option (List Nat)`.
Files are byte lists; the directory is a record of the WAL bytes, a partial
map from disk-table indexes to the three files of a table, and the meta file.
-/

set_option maxRecDepth 10000

namespace Lsmtree

abbrev Bytes := List Nat

/-- The `bytes.Compare` from the Go standard library: byte-lexicographic
comparison where a strict prefix is smaller. -/
def byteCompare : Bytes → Bytes → Ordering
  | [], [] => .eq
  | [], _ :: _ => .lt
  | _ :: _, [] => .gt
  | a :: as, b :: bs =>
    if a < b then .lt else if b < a then .gt else byteCompare as bs

theorem byteCompare_eq_iff : ∀ a b : Bytes, byteCompare a b = .eq ↔ a = b
  | [], [] => by simp [byteCompare]
  | [], _ :: _ => by simp [byteCompare]
  | _ :: _, [] => by simp [byteCompare]
  | a :: as, b :: bs => by
    simp only [byteCompare]
    split
    · simp only [List.cons.injEq]
      constructor
      · intro h; exact absurd h (by simp)
      · rintro ⟨rfl, rfl⟩; omega
    · split
      · simp only [List.cons.injEq]
        constructor
        · intro h; exact absurd h (by simp)
        · rintro ⟨rfl, rfl⟩; omega
      · have hab : a = b := by omega
        subst hab
        simp [byteCompare_eq_iff as bs]

theorem byteCompare_self (a : Bytes) : byteCompare a a = .eq :=
  (byteCompare_eq_iff a a).mpr rfl

/-- The `byteCompare` flips under swapping its arguments. -/
theorem byteCompare_swap : ∀ a b : Bytes,
    byteCompare b a = (byteCompare a b).swap
  | [], [] => by simp [byteCompare, Ordering.swap]
  | [], _ :: _ => by simp [byteCompare, Ordering.swap]
  | _ :: _, [] => by simp [byteCompare, Ordering.swap]
  | a :: as, b :: bs => by
    simp only [byteCompare]
    rcases Nat.lt_trichotomy a b with h | h | h
    · rw [if_neg (by omega), if_pos h, if_pos h]; rfl
    · subst h
      rw [if_neg (by omega), if_neg (by omega), if_neg (by omega),
        if_neg (by omega)]
      exact byteCompare_swap as bs
    · rw [if_pos h, if_neg (by omega), if_pos h]; rfl

def byteLt (a b : Bytes) : Prop := byteCompare a b = .lt

instance : DecidableRel byteLt := fun a b => by
  unfold byteLt; infer_instance

theorem byteLt_trans : ∀ {a b c : Bytes}, byteLt a b → byteLt b c → byteLt a c
  | [], [], _, h, _ => by simp [byteLt, byteCompare] at h
  | [], _ :: _, [], _, h => by simp [byteLt, byteCompare] at h
  | [], _ :: _, _ :: _, _, _ => by simp [byteLt, byteCompare]
  | _ :: _, [], _, h, _ => by simp [byteLt, byteCompare] at h
  | _ :: _, _ :: _, [], _, h => by simp [byteLt, byteCompare] at h
  | a :: as, b :: bs, c :: cs, h1, h2 => by
    simp only [byteLt, byteCompare] at h1 h2 ⊢
    rcases Nat.lt_trichotomy a b with hab | hab | hab
    · rcases Nat.lt_trichotomy b c with hbc | hbc | hbc
      · rw [if_pos (by omega : a < c)]
      · subst hbc; rw [if_pos hab]
      · rw [if_neg (by omega), if_pos hbc] at h2; exact absurd h2 (by simp)
    · subst hab
      rw [if_neg (by omega), if_neg (by omega)] at h1
      rcases Nat.lt_trichotomy a c with hac | hac | hac
      · rw [if_pos hac]
      · subst hac
        rw [if_neg (by omega), if_neg (by omega)] at h2 ⊢
        exact byteLt_trans (show byteLt as bs from h1) (show byteLt bs cs from h2)
      · rw [if_neg (by omega), if_pos hac] at h2; exact absurd h2 (by simp)
    · rw [if_neg (by omega), if_pos hab] at h1; exact absurd h1 (by simp)

theorem byteLt_irrefl (a : Bytes) : ¬ byteLt a a := by
  simp [byteLt, byteCompare_self]

theorem byteLt_ne {a b : Bytes} (h : byteLt a b) : a ≠ b := by
  rintro rfl; exact byteLt_irrefl a h

theorem byteCompare_gt_iff_lt {a b : Bytes} :
    byteCompare a b = .gt ↔ byteLt b a := by
  unfold byteLt
  rw [byteCompare_swap a b]
  cases byteCompare a b <;> simp [Ordering.swap]

/-- 64-bit big-endian encoding of a (nonnegative) integer,
`encodeInt` in `encoding.go`. -/
def encodeInt (x : Nat) : Bytes :=
  [x / 2 ^ 56 % 256, x / 2 ^ 48 % 256, x / 2 ^ 40 % 256, x / 2 ^ 32 % 256,
   x / 2 ^ 24 % 256, x / 2 ^ 16 % 256, x / 2 ^ 8 % 256, x % 256]

/-- The `decodeInt` in `encoding.go`: big-endian read of the first 8 bytes
(Go panics when fewer than 8 bytes are available; callers in this file
check the length first). -/
def decodeInt (l : Bytes) : Nat :=
  (l.take 8).foldl (fun acc b => acc * 256 + b) 0

@[simp] theorem encodeInt_length (x : Nat) : (encodeInt x).length = 8 := rfl

theorem decodeInt_encodeInt {x : Nat} (h : x < 2 ^ 64) :
    decodeInt (encodeInt x) = x := by
  simp only [decodeInt, encodeInt, List.take, List.foldl]
  omega

theorem decodeInt_encodeInt_append {x : Nat} (h : x < 2 ^ 64) (rest : Bytes) :
    decodeInt (encodeInt x ++ rest) = x := by
  simp only [decodeInt, encodeInt, List.cons_append, List.nil_append,
    List.take, List.foldl]
  omega

/-- Go's `decodeInt` actually returns `int(binary.BigEndian.Uint64(…))`:
the unsigned 64-bit read reinterpreted as a signed 64-bit integer, so a
field at or above `2^63` wraps negative (eight `FF` bytes decode to
`-1`).  Where the source uses the decoded value as a file offset, this
signed reinterpretation is the faithful model. -/
def decodeIntGo (l : Bytes) : Int :=
  if decodeInt l < 2 ^ 63 then (decodeInt l : Int)
  else (decodeInt l : Int) - 2 ^ 64

theorem decodeIntGo_encodeInt {x : Nat} (h : x < 2 ^ 63) :
    decodeIntGo (encodeInt x) = (x : Int) := by
  unfold decodeIntGo
  rw [decodeInt_encodeInt (by omega), if_pos h]

/-- Result of one `decode` call (`encoding.go`): clean end of stream,
corruption (including the short reads and out-of-range slicings on which
the Go code would error or panic), or one decoded record plus the
remaining bytes.  A `none` value is Go's `nil` value (tombstone). -/
inductive DecodeResult where
  | eof : DecodeResult
  | corrupt : DecodeResult
  | ok (key : Bytes) (value : Option Bytes) (rest : Bytes) : DecodeResult
deriving DecidableEq

/-- The `decode` in `encoding.go` over an in-memory byte stream: read the 8-byte
total length, read that many bytes, split them into the 8-byte key length,
the key and the (possibly absent) value.  `value = none` exactly when the
frame ends right after the key. -/
def decodeRecord (bs : Bytes) : DecodeResult :=
  if bs = [] then .eof
  else if bs.length < 8 then .corrupt
  else
    let entryLen := decodeInt (bs.take 8)
    let rest := bs.drop 8
    if rest.length < entryLen then .corrupt
    else if entryLen < 8 then .corrupt
    else
      let entry := rest.take entryLen
      let keyLen := decodeInt (entry.take 8)
      if entryLen < 8 + keyLen then .corrupt
      else if 8 + keyLen = entryLen then
        .ok ((entry.drop 8).take keyLen) none (rest.drop entryLen)
      else
        .ok ((entry.drop 8).take keyLen) (some (entry.drop (8 + keyLen)))
          (rest.drop entryLen)

/-- The `encode` in `encoding.go`: `[total_len][key_len][key][value]`, where a
`none` value (Go `nil`) contributes no bytes. -/
def encodeRecord (key : Bytes) (value : Option Bytes) : Bytes :=
  let vb := value.getD []
  encodeInt (8 + key.length + vb.length) ++ encodeInt key.length ++ key ++ vb

theorem encodeRecord_length (key : Bytes) (value : Option Bytes) :
    (encodeRecord key value).length =
      16 + key.length + (value.getD []).length := by
  simp [encodeRecord]; omega

/-- A record as stored in memtables and files: validity means the sizes are
physically representable in the 64-bit length fields and the value is not
the empty-but-present slice that the codec cannot distinguish from `nil`. -/
def RecordValid (r : Bytes × Option Bytes) : Prop :=
  16 + r.1.length + ((r.2).getD []).length < 2 ^ 64 ∧ r.2 ≠ some []

instance : DecidablePred RecordValid := fun r => by
  unfold RecordValid; infer_instance

/-- Decoding a well-shaped frame followed by arbitrary extra bytes. -/
theorem decodeRecord_frame (key vb ext : Bytes)
    (h : 16 + key.length + vb.length < 2 ^ 64) :
    decodeRecord (encodeInt (8 + key.length + vb.length) ++
        (encodeInt key.length ++ (key ++ (vb ++ ext)))) =
      if vb = [] then .ok key none ext else .ok key (some vb) ext := by
  have hk : key.length < 2 ^ 64 := by omega
  have hL : 8 + key.length + vb.length < 2 ^ 64 := by omega
  have hsum : 8 + key.length + vb.length =
      (encodeInt key.length).length + (key.length + vb.length) := by
    rw [encodeInt_length]; omega
  have htail : (encodeInt key.length ++ (key ++ (vb ++ ext))).length =
      8 + key.length + vb.length + ext.length := by
    simp only [List.length_append, encodeInt_length]; omega
  have htake : (encodeInt key.length ++ (key ++ (vb ++ ext))).take
      (8 + key.length + vb.length) = encodeInt key.length ++ (key ++ vb) := by
    rw [hsum, List.take_append, List.take_append, List.take_left' rfl]
  have hdropEntry : (encodeInt key.length ++ (key ++ (vb ++ ext))).drop
      (8 + key.length + vb.length) = ext := by
    rw [hsum, List.drop_append, List.drop_append, List.drop_left' rfl]
  have hkey8 : (encodeInt key.length ++ (key ++ vb)).take 8 =
      encodeInt key.length := List.take_left' (encodeInt_length _)
  have hdrop8 : (encodeInt key.length ++ (key ++ vb)).drop 8 = key ++ vb :=
    List.drop_left' (encodeInt_length _)
  have hkeyTake : (key ++ vb).take key.length = key := List.take_left' rfl
  have hvalDrop : (encodeInt key.length ++ (key ++ vb)).drop (8 + key.length)
      = vb := by
    rw [show 8 + key.length = (encodeInt key.length).length + key.length by
        rw [encodeInt_length],
      List.drop_append, List.drop_left' rfl]
  unfold decodeRecord
  rw [if_neg (by simp [encodeInt])]
  rw [if_neg (by
    simp only [List.length_append, encodeInt_length]
    omega)]
  simp only [List.take_left' (encodeInt_length (8 + key.length + vb.length)),
    List.drop_left' (encodeInt_length (8 + key.length + vb.length)),
    decodeInt_encodeInt hL]
  rw [if_neg (by rw [htail]; omega)]
  rw [if_neg (by omega)]
  simp only [htake, hkey8, decodeInt_encodeInt hk, hdrop8, hdropEntry,
    hkeyTake, hvalDrop]
  rw [if_neg (by omega)]
  by_cases hvb : vb = []
  · subst hvb
    rw [if_pos (by simp), if_pos rfl]
  · have : 0 < vb.length := List.length_pos.mpr hvb
    rw [if_neg (by omega), if_neg hvb]

/-- Streaming round trip: decoding a stream that starts with an encoded
valid record yields that record and leaves the remaining stream intact. -/
theorem decodeRecord_encodeRecord_append {key : Bytes} {value : Option Bytes}
    (h : RecordValid (key, value)) (ext : Bytes) :
    decodeRecord (encodeRecord key value ++ ext) = .ok key value ext := by
  obtain ⟨hlen, hne⟩ := h
  simp only at hlen hne
  have e1 : encodeRecord key value ++ ext =
      encodeInt (8 + key.length + (value.getD []).length) ++
        (encodeInt key.length ++ (key ++ (value.getD [] ++ ext))) := by
    simp [encodeRecord]
  rw [e1, decodeRecord_frame key (value.getD []) ext hlen]
  cases value with
  | none => simp
  | some v =>
    have : v ≠ [] := fun hc => hne (by rw [hc])
    simp [this]

theorem decodeRecord_encodeRecord {key : Bytes} {value : Option Bytes}
    (h : RecordValid (key, value)) :
    decodeRecord (encodeRecord key value) = .ok key value [] := by
  have := decodeRecord_encodeRecord_append h []
  rwa [List.append_nil] at this

/-- A successful decode strictly consumes input (at least the 16 header
bytes), which makes the scanning loops below terminate. -/
theorem decodeRecord_rest_length {bs key : Bytes} {value : Option Bytes}
    {rest : Bytes} (h : decodeRecord bs = .ok key value rest) :
    rest.length < bs.length := by
  unfold decodeRecord at h
  split at h
  · exact absurd h (by simp)
  · split at h
    · exact absurd h (by simp)
    · simp only at h
      split at h
      · exact absurd h (by simp)
      · split at h
        · exact absurd h (by simp)
        · rename_i hne hlen hrest hentry
          split at h
          · exact absurd h (by simp)
          · have hbs : 8 ≤ bs.length := by omega
            have h8 : 8 ≤ decodeInt (bs.take 8) := by omega
            split at h <;>
            · cases h
              simp only [List.length_drop]
              omega

/-- The ordered map backing the memtable (`rbytree.Tree`), modelled as an
association list sorted strictly ascending by `byteCompare`.  Stored values
are `Option Bytes` (`none` is a Go `nil` value, i.e. a tombstone). -/
abbrev TreeData := List (Bytes × Option Bytes)

/-- The `rbytree.Tree.Put`: insert or overwrite, returning the new map, the
previous value and whether the key already existed. -/
def treePut : TreeData → Bytes → Option Bytes →
    TreeData × Option Bytes × Bool
  | [], k, v => ([(k, v)], none, false)
  | (k', v') :: rest, k, v =>
    match byteCompare k k' with
    | .lt => ((k, v) :: (k', v') :: rest, none, false)
    | .eq => ((k, v) :: rest, v', true)
    | .gt =>
      let r := treePut rest k v
      ((k', v') :: r.1, r.2)

/-- The `rbytree.Tree.Get`: the stored value and a presence flag (a stored
tombstone yields `(none, true)`). -/
def treeGet : TreeData → Bytes → Option Bytes × Bool
  | [], _ => (none, false)
  | (k', v') :: rest, k =>
    if byteCompare k k' = .eq then (v', true) else treeGet rest k

/-- MemTable (`memtable.go`): the sorted map plus the running byte size. -/
structure MemTable where
  data : TreeData
  b : Int
deriving DecidableEq

/-- The `newMemTable` in `memtable.go`. -/
def newMemTable : MemTable := { data := [], b := 0 }

/-- Length that Go's `len` gives a possibly-`nil` slice. -/
def optLen (v : Option Bytes) : Nat := (v.getD []).length

/-- The `memTable.put`: insert/overwrite and update the byte counter by
`-len(prev)+len(value)` on overwrite, `+len(key)+len(value)` otherwise. -/
def MemTable.put (mt : MemTable) (key : Bytes) (value : Option Bytes) :
    MemTable :=
  let r := treePut mt.data key value
  if r.2.2 then
    { data := r.1, b := mt.b + (optLen value : Int) - (optLen r.2.1 : Int) }
  else
    { data := r.1, b := mt.b + key.length + (optLen value : Int) }

/-- The `memTable.get`. -/
def MemTable.get (mt : MemTable) (key : Bytes) : Option Bytes × Bool :=
  treeGet mt.data key

/-- The `memTable.delete` exactly as written in the source: it stores a
tombstone via `Put(key, nil)` and then updates the byte counter only in
the `!exists` branch. -/
def MemTable.delete (mt : MemTable) (key : Bytes) : MemTable :=
  let r := treePut mt.data key none
  if ¬ r.2.2 then
    { data := r.1, b := mt.b - (optLen r.2.1 : Int) }
  else
    { data := r.1, b := mt.b }

/-- The `memTable.bytes`. -/
def MemTable.bytes (mt : MemTable) : Int := mt.b

/-- The `memTable.clear`. -/
def MemTable.clear (_ : MemTable) : MemTable := newMemTable

/-- The byte size the specification requires `bytes()` to report: the sum
over all present entries of `|key| + |value|`, tombstones contributing 0. -/
def specBytes (data : TreeData) : Int :=
  data.foldl (fun acc r => acc + r.1.length + (optLen r.2 : Int)) 0

/-- One disk table: the three files `<i>-data.db`, `<i>-index.db`,
`<i>-sparse.db`, each a byte stream. -/
structure DiskTable where
  dataFile : Bytes
  indexFile : Bytes
  sparseFile : Bytes
deriving DecidableEq

/-- The `diskTableWriter` state (`encode.go`): the three files under
construction plus the running `keyNum`, `dataPos`, `indexPos`. -/
structure DiskTableWriter where
  dataFile : Bytes
  indexFile : Bytes
  sparseFile : Bytes
  keyNum : Nat
  dataPos : Nat
  indexPos : Nat

def newDiskTableWriter : DiskTableWriter :=
  { dataFile := [], indexFile := [], sparseFile := [],
    keyNum := 0, dataPos := 0, indexPos := 0 }

/-- The `diskTableWriter.write`: append the record to the data file, the
`(key, dataPos)` entry to the index file and, every `sparseKeyDistance`
keys, the `(key, indexPos)` entry to the sparse file.
(`encodeKeyOffset key off w = encode key (encodeInt off) w`.) -/
def diskTableWriterWrite (sparseKeyDistance : Nat) (w : DiskTableWriter)
    (key : Bytes) (value : Option Bytes) : DiskTableWriter :=
  let dataBytes := encodeRecord key value
  let indexBytes := encodeRecord key (some (encodeInt w.dataPos))
  let sparseFile :=
    if w.keyNum % sparseKeyDistance = 0 then
      w.sparseFile ++ encodeRecord key (some (encodeInt w.indexPos))
    else w.sparseFile
  { dataFile := w.dataFile ++ dataBytes,
    indexFile := w.indexFile ++ indexBytes,
    sparseFile := sparseFile,
    keyNum := w.keyNum + 1,
    dataPos := w.dataPos + dataBytes.length,
    indexPos := w.indexPos + indexBytes.length }

/-- Writing a full entry sequence through the disk-table writer. -/
def writeEntries (sparseKeyDistance : Nat) (w : DiskTableWriter)
    (entries : TreeData) : DiskTableWriter :=
  entries.foldl (fun w r => diskTableWriterWrite sparseKeyDistance w r.1 r.2) w

def DiskTableWriter.toTable (w : DiskTableWriter) : DiskTable :=
  { dataFile := w.dataFile, indexFile := w.indexFile,
    sparseFile := w.sparseFile }

/-- The data file produced by the writer is the concatenation of the
encoded records, in order. -/
theorem writeEntries_dataFile (dist : Nat) :
    ∀ (entries : TreeData) (w : DiskTableWriter),
    (writeEntries dist w entries).dataFile =
      w.dataFile ++ entries.flatMap (fun r => encodeRecord r.1 r.2)
  | [], w => by simp [writeEntries]
  | e :: rest, w => by
    simp only [writeEntries, List.foldl_cons, List.flatMap_cons]
    rw [show List.foldl _ (diskTableWriterWrite dist w e.1 e.2) rest =
      writeEntries dist (diskTableWriterWrite dist w e.1 e.2) rest from rfl]
    rw [writeEntries_dataFile dist rest]
    simp [diskTableWriterWrite]

/-- Decode an entire data file into its record list (`none` on
corruption); fuel-indexed version of repeatedly calling `decode` the way
`dataFileIterator` and `loadMemTable` do. -/
def decodeAll (fuel : Nat) (bs : Bytes) : Option TreeData :=
  match fuel with
  | 0 => if bs = [] then some [] else none
  | fuel + 1 =>
    match decodeRecord bs with
    | .eof => some []
    | .corrupt => none
    | .ok k v rest => (decodeAll fuel rest).map (fun es => (k, v) :: es)

/-- The full record sequence of a data file, as streamed by
`dataFileIterator` (`newDataFileIterator` / `next` in the merge file). -/
def dataFileEntries (bs : Bytes) : Option TreeData := decodeAll bs.length bs

theorem decodeAll_flatMap :
    ∀ (entries : TreeData) (fuel : Nat),
    (∀ r ∈ entries, RecordValid r) → entries.length ≤ fuel →
    decodeAll fuel (entries.flatMap (fun r => encodeRecord r.1 r.2)) =
      some entries
  | [], fuel, _, _ => by cases fuel <;> simp [decodeAll, decodeRecord]
  | e :: rest, fuel + 1, hv, hlen => by
    simp only [List.flatMap_cons, decodeAll,
      decodeRecord_encodeRecord_append (hv e (by simp)) _]
    rw [decodeAll_flatMap rest fuel
      (fun r hr => hv r (by simp [hr])) (by simpa using hlen)]
    rfl

theorem flatMap_encodeRecord_length (entries : TreeData) :
    entries.length ≤
      (entries.flatMap (fun r => encodeRecord r.1 r.2)).length := by
  induction entries with
  | nil => simp
  | cons e rest ih =>
    simp only [List.flatMap_cons, List.length_append, List.length_cons]
    have : 16 ≤ (encodeRecord e.1 e.2).length := by
      rw [encodeRecord_length]; omega
    omega

/-- Reading back a data file written from an entry sequence. -/
theorem dataFileEntries_flatMap (entries : TreeData)
    (hv : ∀ r ∈ entries, RecordValid r) :
    dataFileEntries (entries.flatMap (fun r => encodeRecord r.1 r.2)) =
      some entries :=
  decodeAll_flatMap entries _ hv (flatMap_encodeRecord_length entries)

/-- The `merge` loop (`merge` in the compaction file), distilled to the
sequence of records it writes: `a` is the older iterator, `b` the newer;
on equal keys the `b` record wins and both advance; otherwise the smaller
key is emitted.  Exhausted iterators drain the other side verbatim. -/
def mergeLoop : TreeData → TreeData → TreeData
  | [], [] => []
  | [], b :: bs => b :: mergeLoop [] bs
  | a :: as, [] => a :: mergeLoop as []
  | a :: as, b :: bs =>
    match byteCompare a.1 b.1 with
    | .eq => b :: mergeLoop as bs
    | .gt => b :: mergeLoop (a :: as) bs
    | .lt => a :: mergeLoop as (b :: bs)
termination_by as bs => as.length + bs.length

/-- Inner loop of `searchInSparseIndex` (`encode.go`): scan the sparse
file keeping the last smaller anchor's offset in `from` (sentinel `-1`).
Go calls `decodeInt(value)` before comparing keys and would panic on a
value shorter than 8 bytes; that is modelled as an error. -/
def searchInSparseIndexGo (searchKey : Bytes) (bs : Bytes) (fr : Int) :
    Except String (Int × Int × Bool) :=
  match h : decodeRecord bs with
  | .eof => .ok (fr, 0, fr ≠ -1)
  | .corrupt => .error "failed to read"
  | .ok k v rest =>
    if optLen v < 8 then .error "failed to decode int"
    else
      let offset : Int := decodeIntGo (v.getD [])
      match byteCompare k searchKey with
      | .eq => .ok (offset, offset, true)
      | .lt =>
        have : rest.length < bs.length := decodeRecord_rest_length h
        searchInSparseIndexGo searchKey rest offset
      | .gt =>
        if fr = -1 then .ok (0, 0, false)
        else .ok (fr, offset, true)
termination_by bs.length

/-- The `searchInSparseIndex` over the bytes of the sparse file. -/
def searchInSparseIndex (bs : Bytes) (searchKey : Bytes) :
    Except String (Int × Int × Bool) :=
  searchInSparseIndexGo searchKey bs (-1)

/-- Inner loop of `searchInIndex`: `pos` is the absolute file position at
the start of `rem`; after each record, when `to > from`, the loop stops
with not-found once the position passes `to`. -/
def searchInIndexGo (searchKey : Bytes) (fr toPos : Int) (rem : Bytes)
    (pos : Int) : Except String (Int × Bool) :=
  match h : decodeRecord rem with
  | .eof => .ok (0, false)
  | .corrupt => .error "failed to read"
  | .ok k v rest =>
    if optLen v < 8 then .error "failed to decode int"
    else
      let offset := decodeIntGo (v.getD [])
      if k = searchKey then .ok (offset, true)
      else
        let current : Int := pos + ((rem.length - rest.length : Nat) : Int)
        if toPos > fr ∧ current > toPos then .ok (0, false)
        else
          have : rest.length < rem.length := decodeRecord_rest_length h
          searchInIndexGo searchKey fr toPos rest current
termination_by rem.length

/-- The `searchInIndex`: seek the index file to `from` and scan.  A negative
seek offset is an error in Go. -/
def searchInIndex (bs : Bytes) (fr toPos : Int) (searchKey : Bytes) :
    Except String (Int × Bool) :=
  if fr < 0 then .error "failed to seek"
  else searchInIndexGo searchKey fr toPos (bs.drop fr.toNat) fr

/-- Inner loop of `searchInDataFile`: decode records until the key
matches (the value may be `none`, i.e. a tombstone, and is returned with
`found = true`) or EOF. -/
def searchInDataFileGo (searchKey : Bytes) (rem : Bytes) :
    Except String (Option Bytes × Bool) :=
  match h : decodeRecord rem with
  | .eof => .ok (none, false)
  | .corrupt => .error "failed to read"
  | .ok k v rest =>
    if k = searchKey then .ok (v, true)
    else
      have : rest.length < rem.length := decodeRecord_rest_length h
      searchInDataFileGo searchKey rest
termination_by rem.length

/-- The `searchInDataFile`: seek the data file to `offset` and scan
forward; Go's `Seek` rejects a negative offset with an error. -/
def searchInDataFile (bs : Bytes) (offset : Int) (searchKey : Bytes) :
    Except String (Option Bytes × Bool) :=
  if offset < 0 then .error "failed to seek"
  else searchInDataFileGo searchKey (bs.drop offset.toNat)

/-- The database directory: WAL bytes, disk tables by index (a `none`
entry is a missing/deleted table, whose files fail to open), and the
`maxdisktable` meta file holding `(num, maxIndex)` when present. -/
structure Disk where
  wal : Bytes
  tables : Int → Option DiskTable
  meta : Option (Int × Int)

/-- The `searchInDiskTable`: sparse scan, then dense-index scan, then data
scan.  A missing table surfaces as the error opening its files. -/
def searchInDiskTable (d : Disk) (index : Int) (key : Bytes) :
    Except String (Option Bytes × Bool) :=
  match d.tables index with
  | none => .error "failed to open sparse index file"
  | some t =>
    match searchInSparseIndex t.sparseFile key with
    | .error e => .error e
    | .ok (fr, toPos, ok) =>
      if ¬ ok then .ok (none, false)
      else
        match searchInIndex t.indexFile fr toPos key with
        | .error e => .error e
        | .ok (offset, ok) =>
          if ¬ ok then .ok (none, false)
          else searchInDataFile t.dataFile offset key

/-- The loop of `searchInDiskTables` counted by fuel: with fuel `n + 1`
the current index is `n`, and the loop runs `maxIndex, …, 1, 0`. -/
def searchInDiskTablesGo (d : Disk) (key : Bytes) :
    Nat → Except String (Option Bytes × Bool)
  | 0 => .ok (none, false)
  | n + 1 =>
    match searchInDiskTable d n key with
    | .error e => .error e
    | .ok (value, exists_) =>
      if exists_ then .ok (value, exists_)
      else searchInDiskTablesGo d key n

/-- The `searchInDiskTables`: try every index from `maxIndex` down to `0`;
first table that reports found wins. -/
def searchInDiskTables (d : Disk) (maxIndex : Int) (key : Bytes) :
    Except String (Option Bytes × Bool) :=
  searchInDiskTablesGo d key (maxIndex + 1).toNat

/-- The `createDiskTable`: write all memtable entries (iterated in key order,
tombstones included) through a fresh disk-table writer and install the
three files under the given index. -/
def createDiskTable (mt : MemTable) (d : Disk) (index : Int)
    (sparseKeyDistance : Nat) : Disk :=
  let w := writeEntries sparseKeyDistance newDiskTableWriter mt.data
  { d with tables := fun i => if i = index then some w.toTable else d.tables i }

/-- The `updateDiskTableMeta`: overwrite the meta file with `(num, max)`. -/
def updateDiskTableMeta (d : Disk) (num max : Int) : Disk :=
  { d with meta := some (num, max) }

/-- The `readDiskTableMeta`: `(0, -1)` when the meta file does not exist. -/
def readDiskTableMeta (d : Disk) : Int × Int :=
  match d.meta with
  | none => (0, -1)
  | some (num, max) => (num, max)

/-- The `mergeDiskTables dbDir a b`: stream both data files, merge them, and
atomically replace: delete prefixes `a-` and `b-`, rename the merged
table to prefix `b-`.  A missing table or an undecodable data file is an
error, in which case no table is deleted or renamed. -/
def mergeDiskTables (d : Disk) (a b : Int) (sparseKeyDistance : Nat) :
    Except String Disk :=
  match d.tables a with
  | none => .error "failed to open data file a"
  | some ta =>
    match d.tables b with
    | none => .error "failed to open data file b"
    | some tb =>
      match dataFileEntries ta.dataFile, dataFileEntries tb.dataFile with
      | some ea, some eb =>
        let w := writeEntries sparseKeyDistance newDiskTableWriter
          (mergeLoop ea eb)
        .ok { d with tables := fun i =>
          if i = b then some w.toTable
          else if i = a then none
          else d.tables i }
      | _, _ => .error "failed to read"

/-- The engine errors (`lsmtree.go`): the four identity-comparable
validation constants, plus wrapped I/O or corruption errors. -/
inductive LSMError where
  | errKeyRequired
  | errValueRequired
  | errKeyTooLarge
  | errValueTooLarge
  | errOther (msg : String)
deriving DecidableEq

/-- The `MaxKeySize = MaxValueSize = math.MaxUint16`. -/
def MaxKeySize : Nat := 65535

def MaxValueSize : Nat := 65535

/-- The in-memory engine state (`LSMTree` struct): the directory plus the
memtable, the two counters and the three configuration knobs. -/
structure LSMTree where
  disk : Disk
  memTable : MemTable
  maxDiskTableIndex : Int
  diskTableNum : Int
  memTableThreshold : Int
  diskTableNumThreshold : Int
  sparseKeyDistance : Nat

/-- The `appendToWAL`: seek to the end and append one encoded record. -/
def appendToWAL (d : Disk) (key : Bytes) (value : Option Bytes) : Disk :=
  { d with wal := d.wal ++ encodeRecord key value }

/-- The `clearWAL`: reopen the WAL truncated to zero length. -/
def clearWAL (d : Disk) : Disk := { d with wal := [] }

/-- The `flushMemTable`: materialise the memtable as disk table
`maxDiskTableIndex + 1`, persist the new meta pair, truncate the WAL and
clear the memtable. -/
def flushMemTable (t : LSMTree) : LSMTree :=
  let newDiskTableNum := t.diskTableNum + 1
  let newDiskTableIndex := t.maxDiskTableIndex + 1
  let d1 := createDiskTable t.memTable t.disk newDiskTableIndex
    t.sparseKeyDistance
  let d2 := updateDiskTableMeta d1 newDiskTableNum newDiskTableIndex
  let d3 := clearWAL d2
  { t with
    disk := d3
    memTable := t.memTable.clear
    diskTableNum := newDiskTableNum
    maxDiskTableIndex := newDiskTableIndex }

/-- The write stage of `Put` after validation: append to the WAL, insert
into the memtable. -/
def lsmWrite (key value : Bytes) (t : LSMTree) : LSMTree :=
  { t with
    disk := appendToWAL t.disk key (some value)
    memTable := t.memTable.put key (some value) }

/-- The flush stage of `Put`: flush when the memtable byte count reaches
the threshold. -/
def lsmMaybeFlush (t1 : LSMTree) : LSMTree :=
  if t1.memTable.bytes ≥ t1.memTableThreshold then flushMemTable t1 else t1

/-- The compaction stage of `Put`: when the table count reaches the
threshold, merge the two oldest tables (`oldest = maxIndex - num + 1`
and `oldest + 1`), persist the meta pair `(num - 1, maxIndex)` and
decrement the count.  A merge error is returned wrapped, leaving the
tables, the meta file and the counters untouched. -/
def lsmMaybeMerge (t2 : LSMTree) : LSMTree × Option LSMError :=
  if t2.diskTableNum ≥ t2.diskTableNumThreshold then
    match mergeDiskTables t2.disk (t2.maxDiskTableIndex - t2.diskTableNum + 1)
      (t2.maxDiskTableIndex - t2.diskTableNum + 1 + 1) t2.sparseKeyDistance
    with
    | .error e => (t2, some (.errOther e))
    | .ok d' =>
      ({ t2 with
        disk := updateDiskTableMeta d' (t2.diskTableNum - 1)
          t2.maxDiskTableIndex
        diskTableNum := t2.diskTableNum - 1 }, none)
  else (t2, none)

/-- The `LSMTree.Put`: validate sizes, append to the WAL, insert into the
memtable, flush when the memtable passes its threshold and then compact
the two oldest tables when the table count passes its threshold.  The
returned state reflects exactly the mutations performed before any
error. -/
def lsmPut (key value : Bytes) (t : LSMTree) : LSMTree × Option LSMError :=
  if key.length = 0 then (t, some .errKeyRequired)
  else if key.length > MaxKeySize then (t, some .errKeyTooLarge)
  else if value.length = 0 then (t, some .errValueRequired)
  else if value.length > MaxValueSize then (t, some .errValueTooLarge)
  else lsmMaybeMerge (lsmMaybeFlush (lsmWrite key value t))

/-- The `LSMTree.Get`: memtable first (`found` means the stored value is not
a tombstone), then the disk tables newest-first. -/
def lsmGet (t : LSMTree) (key : Bytes) :
    Option Bytes × Bool × Option String :=
  match t.memTable.get key with
  | (value, true) => (value, value.isSome, none)
  | (_, false) =>
    match searchInDiskTables t.disk t.maxDiskTableIndex key with
    | .error e => (none, false, some e)
    | .ok (value, exists_) => (value, exists_, none)

/-- The `LSMTree.Delete`: append a tombstone record to the WAL and mark the
key tombstoned in the memtable; nothing else is touched. -/
def lsmDelete (key : Bytes) (t : LSMTree) : LSMTree × Option LSMError :=
  ({ t with
    disk := appendToWAL t.disk key none
    memTable := t.memTable.delete key }, none)

/-- Inner loop of `loadMemTable`: replay WAL records into a fresh
memtable; a record with a value is a put, one without is a delete.
`none` is the decode failure that makes `Open` fail. -/
def loadMemTableGo (bs : Bytes) (mt : MemTable) : Option MemTable :=
  match h : decodeRecord bs with
  | .eof => some mt
  | .corrupt => none
  | .ok k v rest =>
    have : rest.length < bs.length := decodeRecord_rest_length h
    match v with
    | some v' => loadMemTableGo rest (mt.put k (some v'))
    | none => loadMemTableGo rest (mt.delete k)
termination_by bs.length

/-- The `loadMemTable`: replay the whole WAL from the start. -/
def loadMemTable (d : Disk) : Option MemTable :=
  loadMemTableGo d.wal newMemTable

def defaultMemTableThreshold : Int := 64000

def defaultSparseKeyDistance : Nat := 128

def defaultDiskTableNumThreshold : Int := 10

/-- The `Open` with explicit option values: load the memtable from the WAL,
read the meta file, build the engine.  `none` when WAL replay fails. -/
def openTreeWith (d : Disk) (memThreshold numThreshold : Int)
    (dist : Nat) : Option LSMTree :=
  match loadMemTable d with
  | none => none
  | some mt =>
    let meta := readDiskTableMeta d
    some { disk := d, memTable := mt, diskTableNum := meta.1,
           maxDiskTableIndex := meta.2, memTableThreshold := memThreshold,
           diskTableNumThreshold := numThreshold, sparseKeyDistance := dist }

/-- The `Open` with no options (all defaults). -/
def openTree (d : Disk) : Option LSMTree :=
  openTreeWith d defaultMemTableThreshold defaultDiskTableNumThreshold
    defaultSparseKeyDistance

/-- A fresh, empty database directory. -/
def emptyDisk : Disk := { wal := [], tables := fun _ => none, meta := none }

/-- The state `Open` produces on a fresh directory, with the given
options. -/
def initTree (memThreshold numThreshold : Int) (dist : Nat) : LSMTree :=
  { disk := emptyDisk, memTable := newMemTable,
    diskTableNum := 0, maxDiskTableIndex := -1,
    memTableThreshold := memThreshold,
    diskTableNumThreshold := numThreshold,
    sparseKeyDistance := dist }

/-- One API mutation. -/
inductive Op where
  | put (key value : Bytes)
  | del (key : Bytes)

/-- Execute one operation, keeping the (possibly partially mutated)
state exactly as the Go methods leave their receiver. -/
def applyOp (t : LSMTree) (op : Op) : LSMTree :=
  match op with
  | .put k v => (lsmPut k v t).1
  | .del k => (lsmDelete k t).1

def applyOps (t : LSMTree) (ops : List Op) : LSMTree :=
  ops.foldl applyOp t

/-! ## Helper lemmas shared by several claims -/

/-- After `treePut data k v`, looking up `k` finds exactly `v`. -/
theorem treeGet_treePut_self : ∀ (data : TreeData) (k : Bytes)
    (v : Option Bytes), treeGet (treePut data k v).1 k = (v, true)
  | [], k, v => by simp [treePut, treeGet, byteCompare_self]
  | (k', v') :: rest, k, v => by
    simp only [treePut]
    cases h : byteCompare k k' with
    | lt => simp [treeGet, byteCompare_self]
    | eq => simp [treeGet, byteCompare_self]
    | gt =>
      simp only [treeGet, h]
      rw [if_neg (by simp)]
      exact treeGet_treePut_self rest k v

/-- The map part of `memTable.delete` stores a tombstone for the key,
whichever branch the byte counter takes. -/
theorem MemTable.delete_data (mt : MemTable) (key : Bytes) :
    (mt.delete key).data = (treePut mt.data key none).1 := by
  unfold MemTable.delete
  simp only
  split <;> rfl

/-! ## C1 -/

/-- C1 (code bug): after `put("k","vv")` then `delete("k")` the source's
byte counter still reads 3, because `memTable.delete` decrements `b` in
the `!exists` branch; the claimed invariant (and the repository's own
`TestMemTable_delete`) require `bytes()` to drop to `|key| = 1`, the sum
over present entries with the tombstone contributing 0. -/
theorem memTable_delete_bytes_bug :
    ((newMemTable.put [107] (some [118, 118])).delete [107]).bytes = 3 ∧
    specBytes (((newMemTable.put [107] (some [118, 118])).delete
      [107]).data) = 1 ∧
    (3 : Int) ≠ 1 := by
  refine ⟨by decide, by decide, by decide⟩

/-! ## C7 -/

/-- C7: the codec round-trips: for every key of 1..65535 bytes and every
value that is a tombstone or 1..65535 bytes, decoding the encoding gives
back exactly the key and the value, a tombstone decoding as `none`. -/
theorem decode_encode_roundtrip (key : Bytes) (value : Option Bytes)
    (hk1 : 1 ≤ key.length) (hk2 : key.length ≤ MaxKeySize)
    (hv : value = none ∨
      ∃ v, value = some v ∧ 1 ≤ v.length ∧ v.length ≤ MaxValueSize) :
    decodeRecord (encodeRecord key value) = .ok key value [] := by
  apply decodeRecord_encodeRecord
  unfold RecordValid
  simp only [MaxKeySize, MaxValueSize] at hk2 hv
  constructor
  · rcases hv with rfl | ⟨v, rfl, h1, h2⟩ <;> simp <;> omega
  · rcases hv with rfl | ⟨v, rfl, h1, h2⟩
    · simp
    · simp only [ne_eq, Option.some.injEq]
      intro hc
      rw [hc] at h1
      simp at h1

/-- Witness for C7 at `key = [1]`, `value = [2]`. -/
theorem decode_encode_roundtrip_witness :
    1 ≤ ([1] : Bytes).length ∧
    decodeRecord (encodeRecord [1] (some [2])) = .ok [1] (some [2]) [] :=
  ⟨by decide, decode_encode_roundtrip [1] (some [2]) (by decide) (by decide)
    (Or.inr ⟨[2], rfl, by decide, by decide⟩)⟩

/-! ## C10 -/

/-- Validation errors are the four identity-comparable constants. -/
def isValidationError : LSMError → Prop
  | .errOther _ => False
  | _ => True

instance : DecidablePred isValidationError := fun e => by
  cases e <;> simp [isValidationError] <;> infer_instance

/-- C10: encoding `(key, nil)` and `(key, empty)` is byte-identical; any
decoded frame whose total length equals `8 + |key|` carries a `none`
value; and `Put` rejects the empty value (for a size-valid key) before
anything is encoded. -/
theorem emptyValue_indistinguishable_from_tombstone :
    (∀ key : Bytes, encodeRecord key (some []) = encodeRecord key none) ∧
    (∀ (bs key : Bytes) (value : Option Bytes) (rest : Bytes),
      decodeRecord bs = .ok key value rest →
      (value = none ↔ decodeInt (bs.take 8) = 8 + key.length)) ∧
    (∀ (key value : Bytes) (t : LSMTree), 1 ≤ key.length →
      key.length ≤ MaxKeySize → value.length = 0 →
      lsmPut key value t = (t, some .errValueRequired)) := by
  refine ⟨fun key => by simp [encodeRecord], ?_, ?_⟩
  · intro bs key value rest h
    unfold decodeRecord at h
    split at h
    · exact absurd h (by simp)
    · split at h
      · exact absurd h (by simp)
      · simp only at h
        split at h
        · exact absurd h (by simp)
        · split at h
          · exact absurd h (by simp)
          · rename_i hne hlen hrest hentry
            split at h
            · exact absurd h (by simp)
            · rename_i hkl
              have hentryLen : ((bs.drop 8).take (decodeInt (bs.take 8))).length
                  = decodeInt (bs.take 8) := by
                simp only [List.length_take, List.length_drop] at hrest ⊢
                omega
              split at h
              · rename_i heq
                cases h
                simp only [true_iff]
                have : (((bs.drop 8).take (decodeInt (bs.take 8))).drop 8).length
                    = decodeInt (bs.take 8) - 8 := by
                  rw [List.length_drop, hentryLen]
                have hklen : ((((bs.drop 8).take (decodeInt (bs.take 8))).drop 8).take
                    (decodeInt (List.take 8 ((bs.drop 8).take (decodeInt (bs.take 8)))))).length
                    = decodeInt (List.take 8 ((bs.drop 8).take (decodeInt (bs.take 8)))) := by
                  rw [List.length_take, this]
                  omega
                rw [hklen]
                omega
              · rename_i hne2
                cases h
                simp only [reduceCtorEq, false_iff]
                have : (((bs.drop 8).take (decodeInt (bs.take 8))).drop 8).length
                    = decodeInt (bs.take 8) - 8 := by
                  rw [List.length_drop, hentryLen]
                have hklen : ((((bs.drop 8).take (decodeInt (bs.take 8))).drop 8).take
                    (decodeInt (List.take 8 ((bs.drop 8).take (decodeInt (bs.take 8)))))).length
                    = decodeInt (List.take 8 ((bs.drop 8).take (decodeInt (bs.take 8)))) := by
                  rw [List.length_take, this]
                  omega
                rw [hklen]
                omega
  · intro key value t h1 h2 h3
    unfold lsmPut
    rw [if_neg (by omega), if_neg (by omega), if_pos h3]

/-- Witness for C10 at `key = [1]`. -/
theorem emptyValue_indistinguishable_from_tombstone_witness :
    encodeRecord [1] (some []) = encodeRecord [1] none ∧
    lsmPut [1] [] (initTree 64000 10 128) =
      (initTree 64000 10 128, some .errValueRequired) :=
  ⟨emptyValue_indistinguishable_from_tombstone.1 [1],
    emptyValue_indistinguishable_from_tombstone.2.2 [1] [] _ (by decide)
      (by decide) (by decide)⟩

/-! ## C8 -/

/-- C8 counterexample: `Put` with an empty key and a 65536-byte value
returns `KeyRequired`, not `ValueTooLarge`, because key validation runs
first — refuting "ValueTooLarge exactly when the value exceeds 65535
bytes" as stated. -/
theorem lsmPut_valueTooLarge_counterexample :
    (List.replicate 65536 (0 : Nat)).length > MaxValueSize ∧
    (lsmPut [] (List.replicate 65536 (0 : Nat))
      (initTree 64000 10 128)).2 = some .errKeyRequired ∧
    some LSMError.errKeyRequired ≠ some LSMError.errValueTooLarge := by
  refine ⟨by rw [List.length_replicate]; norm_num [MaxValueSize], rfl, by simp⟩

/-- C8 (amended): `KeyRequired` iff the key is empty; `KeyTooLarge` iff
the key exceeds 65535 bytes; `ValueRequired` iff the key is size-valid
and the value is empty; `ValueTooLarge` iff the key is size-valid and
the value exceeds 65535 bytes; and whenever a validation error is
returned the engine state (WAL, memtable, disk, counters) is unchanged. -/
theorem lsmPut_snd_shape (key value : Bytes) (t : LSMTree)
    (h1 : ¬ key.length = 0) (h2 : ¬ key.length > MaxKeySize)
    (h3 : ¬ value.length = 0) (h4 : ¬ value.length > MaxValueSize) :
    (lsmPut key value t).2 = none ∨
      ∃ m, (lsmPut key value t).2 = some (.errOther m) := by
  unfold lsmPut
  rw [if_neg h1, if_neg h2, if_neg h3, if_neg h4]
  unfold lsmMaybeMerge
  split
  · cases hm : mergeDiskTables (lsmMaybeFlush (lsmWrite key value t)).disk
      ((lsmMaybeFlush (lsmWrite key value t)).maxDiskTableIndex -
        (lsmMaybeFlush (lsmWrite key value t)).diskTableNum + 1)
      ((lsmMaybeFlush (lsmWrite key value t)).maxDiskTableIndex -
        (lsmMaybeFlush (lsmWrite key value t)).diskTableNum + 1 + 1)
      (lsmMaybeFlush (lsmWrite key value t)).sparseKeyDistance with
    | error e => right; exact ⟨e, rfl⟩
    | ok d' => left; rfl
  · left; rfl

/-- C8 (amended): `KeyRequired` iff the key is empty; `KeyTooLarge` iff
the key exceeds 65535 bytes; `ValueRequired` iff the key is size-valid
and the value is empty; `ValueTooLarge` iff the key is size-valid and
the value exceeds 65535 bytes; and whenever a validation error is
returned the engine state (WAL, memtable, disk, counters) is unchanged. -/
theorem lsmPut_validation (key value : Bytes) (t : LSMTree) :
    ((lsmPut key value t).2 = some .errKeyRequired ↔ key.length = 0) ∧
    ((lsmPut key value t).2 = some .errKeyTooLarge ↔
      key.length > MaxKeySize) ∧
    ((lsmPut key value t).2 = some .errValueRequired ↔
      (1 ≤ key.length ∧ key.length ≤ MaxKeySize ∧ value.length = 0)) ∧
    ((lsmPut key value t).2 = some .errValueTooLarge ↔
      (1 ≤ key.length ∧ key.length ≤ MaxKeySize ∧
        value.length > MaxValueSize)) ∧
    (∀ e, (lsmPut key value t).2 = some e → isValidationError e →
      (lsmPut key value t).1 = t) := by
  by_cases h1 : key.length = 0
  · have heq : lsmPut key value t = (t, some .errKeyRequired) := by
      unfold lsmPut; rw [if_pos h1]
    rw [heq]
    exact ⟨iff_of_true rfl h1, iff_of_false (by simp) (by simp [h1]),
      iff_of_false (by simp) (by simp [h1]),
      iff_of_false (by simp) (by simp [h1]), fun e he _ => rfl⟩
  · by_cases h2 : key.length > MaxKeySize
    · have heq : lsmPut key value t = (t, some .errKeyTooLarge) := by
        unfold lsmPut; rw [if_neg h1, if_pos h2]
      rw [heq]
      exact ⟨iff_of_false (by simp) h1, iff_of_true rfl h2,
        iff_of_false (by simp) (by rintro ⟨_, hk, _⟩; omega),
        iff_of_false (by simp) (by rintro ⟨_, hk, _⟩; omega),
        fun e he _ => rfl⟩
    · by_cases h3 : value.length = 0
      · have heq : lsmPut key value t = (t, some .errValueRequired) := by
          unfold lsmPut; rw [if_neg h1, if_neg h2, if_pos h3]
        rw [heq]
        exact ⟨iff_of_false (by simp) h1, iff_of_false (by simp) h2,
          iff_of_true rfl ⟨by omega, by omega, h3⟩,
          iff_of_false (by simp) (by rintro ⟨_, _, hv⟩; omega),
          fun e he _ => rfl⟩
      · by_cases h4 : value.length > MaxValueSize
        · have heq : lsmPut key value t = (t, some .errValueTooLarge) := by
            unfold lsmPut; rw [if_neg h1, if_neg h2, if_neg h3, if_pos h4]
          rw [heq]
          exact ⟨iff_of_false (by simp) h1, iff_of_false (by simp) h2,
            iff_of_false (by simp) (by rintro ⟨_, _, hv⟩; omega),
            iff_of_true rfl ⟨by omega, by omega, h4⟩,
            fun e he _ => rfl⟩
        · have hsh := lsmPut_snd_shape key value t h1 h2 h3 h4
          have himp : ∀ c : LSMError, isValidationError c →
              ¬ (lsmPut key value t).2 = some c := by
            intro c hc h
            rcases hsh with hn | ⟨m, hm⟩
            · rw [hn] at h; cases h
            · rw [hm] at h
              cases h
              exact hc.elim
          refine ⟨?_, ?_, ?_, ?_, ?_⟩
          · exact ⟨fun h => absurd h (himp _ trivial), fun h => absurd h h1⟩
          · exact ⟨fun h => absurd h (himp _ trivial), fun h => absurd h h2⟩
          · exact ⟨fun h => absurd h (himp _ trivial),
              fun h => absurd h.2.2 h3⟩
          · exact ⟨fun h => absurd h (himp _ trivial),
              fun h => absurd h.2.2 h4⟩
          · intro e he hv
            exact absurd he (himp e hv)

/-- Witness for C8's amended theorem at `Put(nil, "x")`. -/
theorem lsmPut_validation_witness :
    (lsmPut [] [1] (initTree 64000 10 128)).2 = some .errKeyRequired ∧
    (lsmPut [] [1] (initTree 64000 10 128)).1 = initTree 64000 10 128 :=
  ⟨(lsmPut_validation [] [1] (initTree 64000 10 128)).1.mpr rfl,
    (lsmPut_validation [] [1] (initTree 64000 10 128)).2.2.2.2
      .errKeyRequired
      ((lsmPut_validation [] [1] (initTree 64000 10 128)).1.mpr rfl)
      trivial⟩

/-- Deleting a key always leaves its memtable lookup at `(none, true)`. -/
theorem memTable_delete_get (mt : MemTable) (key : Bytes) :
    (mt.delete key).get key = (none, true) := by
  unfold MemTable.get
  rw [MemTable.delete_data]
  exact treeGet_treePut_self mt.data key none

/-! ## C9 -/

/-- C9: `Delete` never validates and never errors; it appends exactly one
tombstone record to the WAL, marks the key tombstoned in the memtable,
and leaves `diskTableNum`, `maxDiskTableIndex`, the meta file and the
set of on-disk tables unchanged — for every key (empty and oversized
included) and every state, including states past the flush threshold. -/
theorem lsmDelete_frame (key : Bytes) (t : LSMTree) :
    (lsmDelete key t).2 = none ∧
    (lsmDelete key t).1.disk.wal = t.disk.wal ++ encodeRecord key none ∧
    (lsmDelete key t).1.memTable = t.memTable.delete key ∧
    (lsmDelete key t).1.memTable.get key = (none, true) ∧
    (lsmDelete key t).1.diskTableNum = t.diskTableNum ∧
    (lsmDelete key t).1.maxDiskTableIndex = t.maxDiskTableIndex ∧
    (lsmDelete key t).1.disk.meta = t.disk.meta ∧
    (lsmDelete key t).1.disk.tables = t.disk.tables := by
  exact ⟨rfl, rfl, rfl, memTable_delete_get t.memTable key, rfl, rfl,
    rfl, rfl⟩

/-! ## C6 -/

/-- Modelled from the spec's words (amended): the sparse scan over the
decoded `(key, offset)` entry sequence — an equal key returns
`(off, off, true)`; a smaller key advances `from` to its offset; the
first greater key returns `(from, off, true)` when `from ≠ -1` and
`(0, 0, false)` when `from = -1`; EOF returns `(from, 0, from ≠ -1)`. -/
def searchInSparseIndexSpec (searchKey : Bytes) :
    List (Bytes × Nat) → Int → Int × Int × Bool
  | [], fr => (fr, 0, decide (fr ≠ -1))
  | e :: rest, fr =>
    match byteCompare e.1 searchKey with
    | .eq => ((e.2 : Int), (e.2 : Int), true)
    | .lt => searchInSparseIndexSpec searchKey rest (e.2 : Int)
    | .gt => if fr = -1 then (0, 0, false) else (fr, (e.2 : Int), true)

/-- The byte stream of a sparse (or dense) index file holding the given
`(key, offset)` entries. -/
def indexEntriesBytes (entries : List (Bytes × Nat)) : Bytes :=
  entries.flatMap (fun e => encodeRecord e.1 (some (encodeInt e.2)))

theorem searchInSparseIndexGo_spec (searchKey : Bytes)
    (entries : List (Bytes × Nat)) (fr : Int)
    (hv : ∀ e ∈ entries, e.1.length ≤ 65535 ∧ e.2 < 2 ^ 63) :
    searchInSparseIndexGo searchKey (indexEntriesBytes entries) fr =
      .ok (searchInSparseIndexSpec searchKey entries fr) := by
  induction entries generalizing fr with
  | nil =>
    simp [indexEntriesBytes, searchInSparseIndexGo, decodeRecord,
      searchInSparseIndexSpec]
  | cons e rest ih =>
    have hval : RecordValid (e.1, some (encodeInt e.2)) := by
      refine ⟨?_, by simp [encodeInt]⟩
      have := (hv e (by simp)).1
      simp only [Option.getD_some, encodeInt_length]
      omega
    have hdec := decodeRecord_encodeRecord_append hval
      (indexEntriesBytes rest)
    rw [show indexEntriesBytes (e :: rest) =
      encodeRecord e.1 (some (encodeInt e.2)) ++ indexEntriesBytes rest by
        simp [indexEntriesBytes]]
    unfold searchInSparseIndexGo
    split
    · rename_i h
      exact absurd (h.symm.trans hdec) (by simp)
    · rename_i h
      exact absurd (h.symm.trans hdec) (by simp)
    · rename_i k v rest' h
      have hinj := h.symm.trans hdec
      rw [DecodeResult.ok.injEq] at hinj
      obtain ⟨rfl, rfl, rfl⟩ := hinj
      rw [if_neg (by simp [optLen, encodeInt])]
      simp only [Option.getD_some, decodeIntGo_encodeInt (hv e (by simp)).2,
        searchInSparseIndexSpec]
      cases hcmp : byteCompare e.1 searchKey with
      | eq => rfl
      | lt =>
        exact ih (e.2 : Int) (fun r hr => hv r (List.mem_cons_of_mem e hr))
      | gt =>
        by_cases hfr : fr = -1
        · rw [if_pos hfr, if_pos hfr]
        · rw [if_neg hfr, if_neg hfr]

/-- C6 (amended): on a sparse file holding encoded `(key, offset)`
entries, `searchInSparseIndex` behaves exactly as the entry-level scan:
`from` starts at `-1`; an equal entry returns `(off, off, true)`; a
smaller entry advances `from`; the first greater entry returns
`(from, off, true)` when `from ≠ -1` and `(0, 0, false)` when
`from = -1`; EOF returns `(from, 0, from ≠ -1)`.  Offsets are bounded
by `2^63` because the source decodes the 64-bit offset field as a
signed int (larger fields wrap negative). -/
theorem searchInSparseIndex_spec (searchKey : Bytes)
    (entries : List (Bytes × Nat))
    (hv : ∀ e ∈ entries, e.1.length ≤ 65535 ∧ e.2 < 2 ^ 63) :
    searchInSparseIndex (indexEntriesBytes entries) searchKey =
      .ok (searchInSparseIndexSpec searchKey entries (-1)) :=
  searchInSparseIndexGo_spec searchKey entries (-1) hv

/-- Witness for C6's amended theorem: two anchors `[2] ↦ 0`, `[5] ↦ 25`;
searching `[3]` lands between them. -/
theorem searchInSparseIndex_spec_witness :
    searchInSparseIndex (indexEntriesBytes [([2], 0), ([5], 25)]) [3] =
      .ok (0, 25, true) := by
  have h := searchInSparseIndex_spec [3] [([2], 0), ([5], 25)]
    (by decide)
  rw [h]
  rfl

/-- C6 counterexample: a sparse file whose single entry `[2] ↦ 7` has a
key greater than the search key `[1]`.  The code returns `(0, 0, false)`
while the claim's "(from, off, from != −1)" would be `(-1, 7, false)`. -/
theorem searchInSparseIndex_gt_counterexample :
    searchInSparseIndex (indexEntriesBytes [([2], 7)]) [1] =
      .ok (0, 0, false) ∧
    ((0 : Int), (0 : Int), false) ≠ ((-1 : Int), (7 : Int), false) := by
  constructor
  · have h := searchInSparseIndexGo_spec [1] [([2], 7)] (-1) (by decide)
    rw [show searchInSparseIndex (indexEntriesBytes [([2], 7)]) [1] =
      searchInSparseIndexGo [1] (indexEntriesBytes [([2], 7)]) (-1) from
      rfl, h]
    rfl
  · simp

/-- Eight `FF` bytes decode to `-1`, as in Go's signed reinterpretation
of the offset field. -/
theorem decodeIntGo_allOnes : decodeIntGo (encodeInt (2 ^ 64 - 1)) = -1 := by
  unfold decodeIntGo
  rw [decodeInt_encodeInt (by norm_num), if_neg (by norm_num)]
  norm_num

/-- A sparse file whose first anchor carries the offset field `FF…FF`:
the scan decodes it as `-1`, so `from` collides with the sentinel and
the next, greater anchor makes the scan report not-found — matching the
Go behaviour on such a file. -/
theorem searchInSparseIndex_wrapped_offset :
    searchInSparseIndex (indexEntriesBytes [([1], 2 ^ 64 - 1), ([3], 5)])
      [2] = .ok (0, 0, false) := by
  have h1 : RecordValid (([1] : Bytes), some (encodeInt (2 ^ 64 - 1))) := by
    refine ⟨?_, by simp [encodeInt]⟩
    simp only [Option.getD_some, encodeInt_length]
    norm_num
  have h2 : RecordValid (([3] : Bytes), some (encodeInt 5)) := by
    refine ⟨?_, by simp [encodeInt]⟩
    simp only [Option.getD_some, encodeInt_length]
    norm_num
  have hd1 := decodeRecord_encodeRecord_append h1
    (indexEntriesBytes [([3], 5)])
  have hd2 := decodeRecord_encodeRecord h2
  show searchInSparseIndexGo [2]
    (indexEntriesBytes [([1], 2 ^ 64 - 1), ([3], 5)]) (-1) = _
  rw [show indexEntriesBytes [([1], 2 ^ 64 - 1), ([3], 5)] =
    encodeRecord [1] (some (encodeInt (2 ^ 64 - 1))) ++
      indexEntriesBytes [([3], 5)] by simp [indexEntriesBytes]]
  unfold searchInSparseIndexGo
  split
  · rename_i h
    exact absurd (h.symm.trans hd1) (by simp)
  · rename_i h
    exact absurd (h.symm.trans hd1) (by simp)
  · rename_i k v rest' h
    have hinj := h.symm.trans hd1
    rw [DecodeResult.ok.injEq] at hinj
    obtain ⟨rfl, rfl, rfl⟩ := hinj
    rw [if_neg (by simp [optLen, encodeInt])]
    simp only [Option.getD_some, decodeIntGo_allOnes,
      show byteCompare [1] [2] = Ordering.lt from by decide]
    rw [show indexEntriesBytes [([3], 5)] =
      encodeRecord [3] (some (encodeInt 5)) by simp [indexEntriesBytes]]
    unfold searchInSparseIndexGo
    split
    · rename_i h'
      exact absurd (h'.symm.trans hd2) (by simp)
    · rename_i h'
      exact absurd (h'.symm.trans hd2) (by simp)
    · rename_i k v rest' h'
      have hinj := h'.symm.trans hd2
      rw [DecodeResult.ok.injEq] at hinj
      obtain ⟨rfl, rfl, rfl⟩ := hinj
      rw [if_neg (by simp [optLen, encodeInt])]
      simp only [show byteCompare [3] [2] = Ordering.gt from by decide]
      simp

/-! ## C2 and C4 -/

/-- The loop of `searchInDiskTables` returns clean not-found when every
consulted index (`n-1` down to `0`) reports clean not-found. -/
theorem searchInDiskTablesGo_notfound (d : Disk) (key : Bytes) :
    ∀ n : Nat, (∀ i : Nat, i < n → searchInDiskTable d i key =
      .ok (none, false)) →
    searchInDiskTablesGo d key n = .ok (none, false)
  | 0, _ => rfl
  | n + 1, h => by
    unfold searchInDiskTablesGo
    rw [h n (by omega)]
    simp only [Bool.false_eq_true, if_false]
    exact searchInDiskTablesGo_notfound d key n (fun i hi => h i (by omega))

/-- The loop of `searchInDiskTables` returns the first (largest-index)
table that reports found. -/
theorem searchInDiskTablesGo_found (d : Disk) (key : Bytes)
    (v : Option Bytes) :
    ∀ n j : Nat, j < n →
    (∀ i : Nat, j < i → i < n → searchInDiskTable d i key =
      .ok (none, false)) →
    searchInDiskTable d j key = .ok (v, true) →
    searchInDiskTablesGo d key n = .ok (v, true)
  | 0, j, hj, _, _ => by omega
  | n + 1, j, hj, habove, hfound => by
    unfold searchInDiskTablesGo
    by_cases hjn : j = n
    · subst hjn
      rw [hfound]
      rfl
    · rw [habove n (by omega) (by omega)]
      simp only [Bool.false_eq_true, if_false]
      exact searchInDiskTablesGo_found d key v n j (by omega)
        (fun i hi hin => habove i hi (by omega)) hfound

/-- C2 (amended): `searchInDiskTables` consults the indexes from
`maxIndex` down to `0` (not only the live window): when every index in
`[0, maxIndex]` reports a clean not-found the result is a clean
not-found, and the newest index that reports found wins, its value
(possibly a tombstone) being returned.  (When an index in `[0, maxIndex]`
holds no table — as happens below the live window after a compaction —
the lookup instead surfaces the file-open error; see the
counterexample.) -/
theorem searchInDiskTables_characterization (d : Disk) (maxIndex : Int)
    (key : Bytes) :
    ((∀ i : Nat, (i : Int) ≤ maxIndex → searchInDiskTable d i key =
        .ok (none, false)) →
      searchInDiskTables d maxIndex key = .ok (none, false)) ∧
    (∀ (j : Nat) (v : Option Bytes), (j : Int) ≤ maxIndex →
      (∀ i : Nat, j < i → (i : Int) ≤ maxIndex →
        searchInDiskTable d i key = .ok (none, false)) →
      searchInDiskTable d j key = .ok (v, true) →
      searchInDiskTables d maxIndex key = .ok (v, true)) := by
  constructor
  · intro h
    exact searchInDiskTablesGo_notfound d key _
      (fun i hi => h i (by omega))
  · intro j v hj habove hfound
    exact searchInDiskTablesGo_found d key v _ j (by omega)
      (fun i hi hin => habove i hi (by omega)) hfound

/-- A one-record disk table (`{[5] ↦ [9]}`, sparse distance 3) used as a
concrete fixture. -/
def fixtureTable : DiskTable :=
  (writeEntries 3 newDiskTableWriter [([5], some [9])]).toTable

/-- A directory as compaction leaves it: the live window is `{1}`
(meta `(num,max) = (1,1)`), table `0` has been deleted. -/
def holeDisk : Disk :=
  { wal := [],
    tables := fun i => if i = 1 then some fixtureTable else none,
    meta := some (1, 1) }

/-- The engine state over `holeDisk` with an empty memtable. -/
def holeTree : LSMTree :=
  { disk := holeDisk, memTable := newMemTable,
    maxDiskTableIndex := 1, diskTableNum := 1,
    memTableThreshold := 64000, diskTableNumThreshold := 10,
    sparseKeyDistance := 128 }

theorem fixtureTable_sparseFile :
    fixtureTable.sparseFile = indexEntriesBytes [([5], 0)] := by
  simp [fixtureTable, writeEntries, diskTableWriterWrite,
    newDiskTableWriter, DiskTableWriter.toTable, indexEntriesBytes]

/-- Searching the fixture table for the key `[1]` (smaller than its only
anchor) reports a clean not-found from the sparse stage. -/
theorem searchInDiskTable_fixture_notfound (d : Disk) (i : Int)
    (h : d.tables i = some fixtureTable) :
    searchInDiskTable d i [1] = .ok (none, false) := by
  unfold searchInDiskTable
  rw [h]
  dsimp only
  rw [fixtureTable_sparseFile]
  rw [show searchInSparseIndex (indexEntriesBytes [([5], 0)]) [1] =
    searchInSparseIndexGo [1] (indexEntriesBytes [([5], 0)]) (-1) from rfl]
  rw [searchInSparseIndexGo_spec [1] [([5], 0)] (-1) (by decide)]
  rfl

/-- Evaluating the full multi-table lookup on `holeDisk`: index `1`
misses cleanly, index `0` has no table, so the lookup errors. -/
theorem searchInDiskTables_holeDisk_eval :
    searchInDiskTables holeDisk 1 [1] =
      .error "failed to open sparse index file" := by
  show searchInDiskTablesGo holeDisk [1] ((1 + 1 : Int)).toNat = _
  rw [show ((1 + 1 : Int)).toNat = 2 from rfl]
  unfold searchInDiskTablesGo
  rw [show ((1 : Nat) : Int) = (1 : Int) from rfl]
  rw [searchInDiskTable_fixture_notfound holeDisk 1 rfl]
  simp only [Bool.false_eq_true, if_false]
  unfold searchInDiskTablesGo
  rfl

/-- C2 counterexample: on `holeDisk` the live window is `{1}` (one live
table, `max_index = 1`) and its table does not contain the key, yet the
lookup does not return clean not-found — it walks past the window to the
deleted index `0` and errors. -/
theorem searchInDiskTables_window_counterexample :
    readDiskTableMeta holeDisk = (1, 1) ∧
    searchInDiskTable holeDisk 1 [1] = .ok (none, false) ∧
    searchInDiskTables holeDisk 1 [1] =
      .error "failed to open sparse index file" := by
  exact ⟨rfl, searchInDiskTable_fixture_notfound holeDisk 1 rfl,
    searchInDiskTables_holeDisk_eval⟩

/-- A key whose memtable lookup is a tombstone makes `Get` return
`(nil, false, nil)`. -/
theorem lsmGet_of_tombstone (t : LSMTree) (key : Bytes)
    (h : t.memTable.get key = (none, true)) :
    lsmGet t key = (none, false, none) := by
  unfold lsmGet
  rw [h]
  rfl

/-- C4 (amended): `Put(k,v); Delete(k); Get(k)` yields
`(nil, false, nil)` for every key, value and starting state; `Get`
returns `(nil, false, nil)` for keys whose memtable entry is a
tombstone; and for keys absent from the memtable it returns
`(nil, false, nil)` provided every index `0..maxDiskTableIndex` holds a
table that reports clean not-found.  (When an index below the live
window has been deleted by compaction, `Get` instead surfaces an error;
see the counterexample.) -/
theorem lsmGet_tombstone_shadowing (t : LSMTree) (key value : Bytes) :
    (lsmGet (lsmDelete key (lsmPut key value t).1).1 key =
      (none, false, none)) ∧
    (t.memTable.get key = (none, true) →
      lsmGet t key = (none, false, none)) ∧
    ((t.memTable.get key).2 = false →
      (∀ i : Nat, (i : Int) ≤ t.maxDiskTableIndex →
        searchInDiskTable t.disk i key = .ok (none, false)) →
      lsmGet t key = (none, false, none)) := by
  refine ⟨?_, fun h => lsmGet_of_tombstone t key h, ?_⟩
  · apply lsmGet_of_tombstone
    show (((lsmPut key value t).1.memTable).delete key).get key =
      (none, true)
    exact memTable_delete_get _ key
  · intro hmem hall
    have hsearch : searchInDiskTables t.disk t.maxDiskTableIndex key =
        .ok (none, false) :=
      searchInDiskTablesGo_notfound t.disk key _
        (fun i hi => hall i (by omega))
    unfold lsmGet
    rcases hp : t.memTable.get key with ⟨v0, b0⟩
    rw [hp] at hmem
    simp only at hmem
    subst hmem
    rw [hsearch]

/-- C4 counterexample: on `holeTree` (live window `{1}`, table `0`
deleted by compaction, empty memtable) the key `[1]` is absent from the
memtable and from every existing disk table, yet `Get` returns an error
instead of `(nil, false, nil)`. -/
theorem lsmGet_missing_table_counterexample :
    holeTree.memTable.get [1] = (none, false) ∧
    searchInDiskTable holeTree.disk 1 [1] = .ok (none, false) ∧
    lsmGet holeTree [1] =
      (none, false, some "failed to open sparse index file") ∧
    ((none : Option Bytes), false,
      some "failed to open sparse index file") ≠
      ((none : Option Bytes), false, (none : Option String)) := by
  refine ⟨rfl, searchInDiskTable_fixture_notfound holeDisk 1 rfl, ?_,
    by simp⟩
  have h1 : lsmGet holeTree [1] =
      match searchInDiskTables holeDisk 1 [1] with
      | .error e => (none, false, some e)
      | .ok (value, exists_) => (value, exists_, none) := rfl
  rw [h1, searchInDiskTables_holeDisk_eval]

/-- Witness for C4's amended theorem: `Delete` then `Get` on a fresh
engine. -/
theorem lsmGet_tombstone_shadowing_witness :
    lsmGet (lsmDelete [1] (initTree 64000 10 128)).1 [1] =
      (none, false, none) :=
  (lsmGet_tombstone_shadowing (lsmDelete [1] (initTree 64000 10 128)).1
    [1] [0]).2.1 (by decide)

/-- Witness for C2's amended theorem: a directory whose only table lives
at index `0` and does not contain the searched key `[1]`. -/
def windowDisk : Disk :=
  { wal := [],
    tables := fun i => if i = 0 then some fixtureTable else none,
    meta := some (1, 0) }

theorem searchInDiskTables_characterization_witness :
    searchInDiskTables windowDisk 0 [1] = .ok (none, false) := by
  apply (searchInDiskTables_characterization windowDisk 0 [1]).1
  intro i hi
  have hz : i = 0 := by omega
  subst hz
  exact searchInDiskTable_fixture_notfound windowDisk 0 rfl

/-! ## C5 -/

/-- Association lookup in an entry sequence (`bytes.Equal` key match);
`some none` is a present tombstone. -/
def lookupKey : TreeData → Bytes → Option (Option Bytes)
  | [], _ => none
  | r :: rest, k => if r.1 = k then some r.2 else lookupKey rest k

/-- The value the specification assigns to a key after merging: `M₂[k]`
if `M₂` contains the key (tombstones included), else `M₁[k]`. -/
def lookupOverride (older newer : TreeData) (k : Bytes) :
    Option (Option Bytes) :=
  match lookupKey newer k with
  | some v => some v
  | none => lookupKey older k

/-- Entry sequences sorted strictly ascending by key. -/
def EntriesSorted (l : TreeData) : Prop :=
  List.Pairwise (fun a b => byteLt a.1 b.1) l

theorem lookupKey_eq_none_iff (k : Bytes) :
    ∀ l : TreeData, lookupKey l k = none ↔ k ∉ l.map Prod.fst
  | [] => by simp [lookupKey]
  | r :: rest => by
    simp only [lookupKey, List.map_cons, List.mem_cons]
    split
    · rename_i hk
      simp [hk]
    · rename_i hk
      rw [lookupKey_eq_none_iff k rest]
      constructor
      · intro hr hc
        rcases hc with hc | hc
        · exact hk hc.symm
        · exact hr hc
      · intro hc hr
        exact hc (Or.inr hr)

theorem mergeLoop_nil_left : ∀ bs : TreeData, mergeLoop [] bs = bs
  | [] => by simp [mergeLoop]
  | b :: bs => by rw [mergeLoop, mergeLoop_nil_left bs]

theorem mergeLoop_nil_right : ∀ as : TreeData, mergeLoop as [] = as
  | [] => by simp [mergeLoop]
  | a :: as => by rw [mergeLoop, mergeLoop_nil_right as]

/-- Every record the merge emits comes verbatim from one of its inputs
(tombstones preserved). -/
theorem mergeLoop_mem_subset :
    ∀ (as bs : TreeData) (r : Bytes × Option Bytes),
    r ∈ mergeLoop as bs → r ∈ as ∨ r ∈ bs
  | [], bs, r, h => by rw [mergeLoop_nil_left] at h; exact Or.inr h
  | a :: as, [], r, h => by rw [mergeLoop_nil_right] at h; exact Or.inl h
  | a :: as, b :: bs, r, h => by
    rw [mergeLoop] at h
    rcases hcmp : byteCompare a.1 b.1 with _ | _ | _ <;> rw [hcmp] at h
    · -- lt
      rcases List.mem_cons.mp h with rfl | h'
      · exact Or.inl (by simp)
      · rcases mergeLoop_mem_subset as (b :: bs) r h' with h1 | h1
        · exact Or.inl (by simp [h1])
        · exact Or.inr h1
    · -- eq
      rcases List.mem_cons.mp h with rfl | h'
      · exact Or.inr (by simp)
      · rcases mergeLoop_mem_subset as bs r h' with h1 | h1
        · exact Or.inl (by simp [h1])
        · exact Or.inr (by simp [h1])
    · -- gt
      rcases List.mem_cons.mp h with rfl | h'
      · exact Or.inr (by simp)
      · rcases mergeLoop_mem_subset (a :: as) bs r h' with h1 | h1
        · exact Or.inl h1
        · exact Or.inr (by simp [h1])
termination_by as bs => as.length + bs.length

instance : DecidablePred EntriesSorted := fun l => by
  unfold EntriesSorted; infer_instance

/-- Merged lookup: the newer side's value wins when present (tombstones
included), otherwise the older side's value. -/
theorem mergeLoop_lookup :
    ∀ (as bs : TreeData), EntriesSorted as → EntriesSorted bs →
    ∀ k, lookupKey (mergeLoop as bs) k = lookupOverride as bs k
  | [], bs, _, _, k => by
    rw [mergeLoop_nil_left]
    unfold lookupOverride
    cases h : lookupKey bs k <;> rfl
  | a :: as, [], _, _, k => by
    rw [mergeLoop_nil_right]
    unfold lookupOverride
    rfl
  | a :: as, b :: bs, hsa, hsb, k => by
    obtain ⟨ha, hsa'⟩ := List.pairwise_cons.mp hsa
    obtain ⟨hb, hsb'⟩ := List.pairwise_cons.mp hsb
    rw [mergeLoop]
    rcases hcmp : byteCompare a.1 b.1 with _ | _ | _
    · -- a.1 < b.1: the `a` record is emitted
      have hlt : byteLt a.1 b.1 := hcmp
      simp only [lookupKey]
      by_cases hk : a.1 = k
      · rw [if_pos hk]
        have hnone : lookupKey (b :: bs) k = none := by
          rw [lookupKey_eq_none_iff]
          simp only [List.map_cons, List.mem_cons]
          rintro (hc | hc)
          · exact byteLt_ne hlt (hk.trans hc)
          · obtain ⟨r, hr, hrk⟩ := List.mem_map.mp hc
            have h1 : byteLt b.1 r.1 := hb r hr
            have h2 : byteLt a.1 r.1 := byteLt_trans hlt h1
            exact byteLt_ne h2 (hk.trans hrk.symm)
        unfold lookupOverride
        rw [hnone]
        simp [lookupKey, hk]
      · rw [if_neg hk]
        rw [mergeLoop_lookup as (b :: bs) hsa' hsb k]
        unfold lookupOverride
        cases hl : lookupKey (b :: bs) k
        · simp [lookupKey, hk]
        · rfl
    · -- equal keys: the newer `b` record is emitted, both consumed
      have hab1 : a.1 = b.1 := (byteCompare_eq_iff _ _).mp hcmp
      simp only [lookupKey]
      by_cases hk : b.1 = k
      · rw [if_pos hk]
        unfold lookupOverride
        simp [lookupKey, hk]
      · rw [if_neg hk]
        rw [mergeLoop_lookup as bs hsa' hsb' k]
        have hak : ¬ a.1 = k := by rw [hab1]; exact hk
        unfold lookupOverride
        simp only [lookupKey, if_neg hk, if_neg hak]
    · -- a.1 > b.1: the `b` record is emitted
      simp only [lookupKey]
      by_cases hk : b.1 = k
      · rw [if_pos hk]
        unfold lookupOverride
        simp [lookupKey, hk]
      · rw [if_neg hk]
        rw [mergeLoop_lookup (a :: as) bs hsa hsb' k]
        unfold lookupOverride
        simp only [lookupKey, if_neg hk]
termination_by as bs => as.length + bs.length

/-- The merge emits its records in strictly ascending key order. -/
theorem mergeLoop_sorted :
    ∀ (as bs : TreeData), EntriesSorted as → EntriesSorted bs →
    EntriesSorted (mergeLoop as bs)
  | [], bs, _, hsb => by rwa [mergeLoop_nil_left]
  | a :: as, [], hsa, _ => by rwa [mergeLoop_nil_right]
  | a :: as, b :: bs, hsa, hsb => by
    obtain ⟨ha, hsa'⟩ := List.pairwise_cons.mp hsa
    obtain ⟨hb, hsb'⟩ := List.pairwise_cons.mp hsb
    rw [mergeLoop]
    rcases hcmp : byteCompare a.1 b.1 with _ | _ | _
    · unfold EntriesSorted
      rw [List.pairwise_cons]
      refine ⟨?_, mergeLoop_sorted as (b :: bs) hsa' hsb⟩
      intro r hr
      rcases mergeLoop_mem_subset as (b :: bs) r hr with h1 | h1
      · exact ha r h1
      · rcases List.mem_cons.mp h1 with rfl | h2
        · exact hcmp
        · exact byteLt_trans hcmp (hb r h2)
    · have hab1 : a.1 = b.1 := (byteCompare_eq_iff _ _).mp hcmp
      unfold EntriesSorted
      rw [List.pairwise_cons]
      refine ⟨?_, mergeLoop_sorted as bs hsa' hsb'⟩
      intro r hr
      rcases mergeLoop_mem_subset as bs r hr with h1 | h1
      · exact hab1 ▸ ha r h1
      · exact hb r h1
    · have hba : byteLt b.1 a.1 := byteCompare_gt_iff_lt.mp hcmp
      unfold EntriesSorted
      rw [List.pairwise_cons]
      refine ⟨?_, mergeLoop_sorted (a :: as) bs hsa hsb'⟩
      intro r hr
      rcases mergeLoop_mem_subset (a :: as) bs r hr with h1 | h1
      · rcases List.mem_cons.mp h1 with rfl | h2
        · exact hba
        · exact byteLt_trans hba (ha r h2)
      · exact hb r h1
termination_by as bs => as.length + bs.length

/-- The directory `mergeDiskTables` produces from two freshly written
tables: table `a` deleted, table `b` replaced by the merged table. -/
def mergedDisk (M1 M2 : MemTable) (a b : Int) (dist : Nat) (d : Disk) :
    Disk :=
  { createDiskTable M2 (createDiskTable M1 d a dist) b dist with
    tables := fun i =>
      if i = b then
        some (writeEntries dist newDiskTableWriter
          (mergeLoop M1.data M2.data)).toTable
      else if i = a then none
      else (createDiskTable M2 (createDiskTable M1 d a dist) b dist).tables
        i }

/-- C5: merging the disk tables built from memtables `M₁` (older, at
index `a`) and `M₂` (newer, at index `b`, `a < b`) succeeds and installs
at index `b` a table whose data file holds exactly the merge-loop output:
its records are in strictly ascending key order, the value stored for
each key is `M₂`'s when `M₂` contains the key (tombstones included and
preserved) and `M₁`'s otherwise, and its key set is exactly
`keys(M₁) ∪ keys(M₂)`. -/
theorem mergeDiskTables_correct (M1 M2 : MemTable) (a b : Int)
    (dist : Nat) (d : Disk) (hab : a < b)
    (hs1 : EntriesSorted M1.data) (hs2 : EntriesSorted M2.data)
    (hv1 : ∀ r ∈ M1.data, RecordValid r)
    (hv2 : ∀ r ∈ M2.data, RecordValid r) :
    mergeDiskTables (createDiskTable M2 (createDiskTable M1 d a dist) b
      dist) a b dist = .ok (mergedDisk M1 M2 a b dist d) ∧
    (mergedDisk M1 M2 a b dist d).tables b =
      some (writeEntries dist newDiskTableWriter
        (mergeLoop M1.data M2.data)).toTable ∧
    dataFileEntries (writeEntries dist newDiskTableWriter
      (mergeLoop M1.data M2.data)).toTable.dataFile =
      some (mergeLoop M1.data M2.data) ∧
    EntriesSorted (mergeLoop M1.data M2.data) ∧
    (∀ k, lookupKey (mergeLoop M1.data M2.data) k =
      lookupOverride M1.data M2.data k) ∧
    (∀ k, k ∈ (mergeLoop M1.data M2.data).map Prod.fst ↔
      (k ∈ M1.data.map Prod.fst ∨ k ∈ M2.data.map Prod.fst)) := by
  have hvout : ∀ r ∈ mergeLoop M1.data M2.data, RecordValid r := by
    intro r hr
    rcases mergeLoop_mem_subset _ _ r hr with h | h
    · exact hv1 r h
    · exact hv2 r h
  have hout : dataFileEntries (writeEntries dist newDiskTableWriter
      (mergeLoop M1.data M2.data)).toTable.dataFile =
      some (mergeLoop M1.data M2.data) := by
    show dataFileEntries
      (writeEntries dist newDiskTableWriter (mergeLoop M1.data M2.data)).dataFile = _
    rw [writeEntries_dataFile, show newDiskTableWriter.dataFile = [] from
      rfl, List.nil_append]
    exact dataFileEntries_flatMap _ hvout
  refine ⟨?_, ?_, hout, mergeLoop_sorted _ _ hs1 hs2,
    mergeLoop_lookup _ _ hs1 hs2, ?_⟩
  · -- the merge evaluates to the explicit merged directory
    have htab_a : (createDiskTable M2 (createDiskTable M1 d a dist) b
        dist).tables a =
        some (writeEntries dist newDiskTableWriter M1.data).toTable := by
      simp only [createDiskTable]
      rw [if_neg (show ¬ a = b by omega)]
      simp
    have htab_b : (createDiskTable M2 (createDiskTable M1 d a dist) b
        dist).tables b =
        some (writeEntries dist newDiskTableWriter M2.data).toTable := by
      simp only [createDiskTable]
      simp
    have hE1 : dataFileEntries (writeEntries dist newDiskTableWriter
        M1.data).toTable.dataFile = some M1.data := by
      show dataFileEntries
        (writeEntries dist newDiskTableWriter M1.data).dataFile = _
      rw [writeEntries_dataFile, show newDiskTableWriter.dataFile = []
        from rfl, List.nil_append]
      exact dataFileEntries_flatMap _ hv1
    have hE2 : dataFileEntries (writeEntries dist newDiskTableWriter
        M2.data).toTable.dataFile = some M2.data := by
      show dataFileEntries
        (writeEntries dist newDiskTableWriter M2.data).dataFile = _
      rw [writeEntries_dataFile, show newDiskTableWriter.dataFile = []
        from rfl, List.nil_append]
      exact dataFileEntries_flatMap _ hv2
    unfold mergeDiskTables
    rw [htab_a]
    dsimp only
    rw [htab_b]
    dsimp only
    rw [hE1, hE2]
    rfl
  · show (if b = b then _ else _) = _
    rw [if_pos rfl]
  · intro k
    constructor
    · intro h
      obtain ⟨r, hr, hrk⟩ := List.mem_map.mp h
      rcases mergeLoop_mem_subset _ _ r hr with h1 | h1
      · exact Or.inl (List.mem_map.mpr ⟨r, h1, hrk⟩)
      · exact Or.inr (List.mem_map.mpr ⟨r, h1, hrk⟩)
    · intro h
      by_contra hc
      have hnone : lookupKey (mergeLoop M1.data M2.data) k = none :=
        (lookupKey_eq_none_iff k _).mpr hc
      rw [mergeLoop_lookup _ _ hs1 hs2 k] at hnone
      unfold lookupOverride at hnone
      rcases h with h | h
      · have h1 : lookupKey M1.data k ≠ none :=
          fun hn => ((lookupKey_eq_none_iff k _).mp hn) h
        cases hl2 : lookupKey M2.data k with
        | some v => rw [hl2] at hnone; simp at hnone
        | none => rw [hl2] at hnone; simp at hnone; exact h1 hnone
      · have h2 : lookupKey M2.data k ≠ none :=
          fun hn => ((lookupKey_eq_none_iff k _).mp hn) h
        cases hl2 : lookupKey M2.data k with
        | some v => rw [hl2] at hnone; simp at hnone
        | none => exact h2 hl2

/-- Witness for C5: `M₁ = {[1]↦[10], [2]↦[20]}` (older),
`M₂ = {[2]↦tombstone}` (newer), merged from index 0 into index 1; the
tombstone shadows `[2]`'s old value and is preserved. -/
theorem mergeDiskTables_correct_witness :
    EntriesSorted [([1], some [10]), ([2], some [20])] ∧
    lookupKey (mergeLoop [([1], some [10]), ([2], some [20])]
      [([2], (none : Option Bytes))]) [2] =
      lookupOverride [([1], some [10]), ([2], some [20])]
        [([2], none)] [2] ∧
    mergeDiskTables (createDiskTable ⟨[([2], none)], 1⟩
        (createDiskTable ⟨[([1], some [10]), ([2], some [20])], 6⟩
          emptyDisk 0 3) 1 3) 0 1 3 =
      .ok (mergedDisk ⟨[([1], some [10]), ([2], some [20])], 6⟩
        ⟨[([2], none)], 1⟩ 0 1 3 emptyDisk) :=
  ⟨by decide,
    (mergeDiskTables_correct ⟨[([1], some [10]), ([2], some [20])], 6⟩
      ⟨[([2], none)], 1⟩ 0 1 3 emptyDisk (by decide) (by decide)
      (by decide) (by decide) (by decide)).2.2.2.2.1 [2],
    (mergeDiskTables_correct ⟨[([1], some [10]), ([2], some [20])], 6⟩
      ⟨[([2], none)], 1⟩ 0 1 3 emptyDisk (by decide) (by decide)
      (by decide) (by decide) (by decide)).1⟩

/-! ## C3 -/

/-- Replaying one decoded WAL record the way `loadMemTable` does:
a record with a value is a put, one without is a delete. -/
def replayRecord (mt : MemTable) (r : Bytes × Option Bytes) : MemTable :=
  match r.2 with
  | some v => mt.put r.1 (some v)
  | none => mt.delete r.1

def replayRecords (l : TreeData) : MemTable :=
  l.foldl replayRecord newMemTable

/-- Replaying an encoded valid record stream reconstructs exactly the
fold of the records over the memtable. -/
theorem loadMemTableGo_flatMap :
    ∀ (l : TreeData) (mt : MemTable), (∀ r ∈ l, RecordValid r) →
    loadMemTableGo (l.flatMap (fun r => encodeRecord r.1 r.2)) mt =
      some (l.foldl replayRecord mt)
  | [], mt, _ => by
    simp [loadMemTableGo, decodeRecord]
  | r :: rest, mt, hv => by
    have hdec := decodeRecord_encodeRecord_append (hv r (by simp))
      (rest.flatMap (fun r => encodeRecord r.1 r.2))
    rw [List.flatMap_cons]
    unfold loadMemTableGo
    split
    · rename_i h
      exact absurd (h.symm.trans hdec) (by simp)
    · rename_i h
      exact absurd (h.symm.trans hdec) (by simp)
    · rename_i k v rest' h
      have hinj := h.symm.trans hdec
      rw [DecodeResult.ok.injEq] at hinj
      obtain ⟨rfl, rfl, rfl⟩ := hinj
      rw [List.foldl_cons]
      rcases r with ⟨rk, rv⟩
      cases rv with
      | some v' =>
        exact loadMemTableGo_flatMap rest (mt.put rk (some v'))
          (fun r hr => hv r (by simp [hr]))
      | none =>
        exact loadMemTableGo_flatMap rest (mt.delete rk)
          (fun r hr => hv r (by simp [hr]))

/-- The WAL mirrors the memtable: the WAL bytes are the encoding of some
valid record sequence whose replay is exactly the current memtable. -/
def WalInv (t : LSMTree) : Prop :=
  ∃ l : TreeData, (∀ r ∈ l, RecordValid r) ∧
    t.disk.wal = l.flatMap (fun r => encodeRecord r.1 r.2) ∧
    t.memTable = replayRecords l

/-- The meta file mirrors the in-memory counters. -/
def MetaInv (t : LSMTree) : Prop :=
  readDiskTableMeta t.disk = (t.diskTableNum, t.maxDiskTableIndex)

theorem WalInv_lsmWrite {t : LSMTree} (k v : Bytes)
    (hval : RecordValid (k, some v)) (h : WalInv t) :
    WalInv (lsmWrite k v t) := by
  obtain ⟨l, hvl, hwal, hmem⟩ := h
  refine ⟨l ++ [(k, some v)], ?_, ?_, ?_⟩
  · intro r hr
    rcases List.mem_append.mp hr with hr | hr
    · exact hvl r hr
    · rw [List.mem_singleton.mp hr]
      exact hval
  · show t.disk.wal ++ encodeRecord k (some v) = _
    rw [List.flatMap_append, hwal]
    simp
  · show t.memTable.put k (some v) = replayRecords (l ++ [(k, some v)])
    unfold replayRecords
    rw [List.foldl_append, ← replayRecords, ← hmem]
    rfl

theorem MetaInv_lsmWrite {t : LSMTree} (k v : Bytes) (h : MetaInv t) :
    MetaInv (lsmWrite k v t) := h

theorem WalInv_flushMemTable (t1 : LSMTree) :
    WalInv (flushMemTable t1) :=
  ⟨[], by simp, rfl, rfl⟩

theorem MetaInv_flushMemTable (t1 : LSMTree) :
    MetaInv (flushMemTable t1) := rfl

theorem WalInv_lsmMaybeFlush {t1 : LSMTree} (h : WalInv t1) :
    WalInv (lsmMaybeFlush t1) := by
  unfold lsmMaybeFlush
  split
  · exact WalInv_flushMemTable t1
  · exact h

theorem MetaInv_lsmMaybeFlush {t1 : LSMTree} (h : MetaInv t1) :
    MetaInv (lsmMaybeFlush t1) := by
  unfold lsmMaybeFlush
  split
  · exact MetaInv_flushMemTable t1
  · exact h

/-- A successful merge only touches the table map. -/
theorem mergeDiskTables_ok_fields {d : Disk} {a b : Int} {dist : Nat}
    {d' : Disk} (h : mergeDiskTables d a b dist = .ok d') :
    d'.wal = d.wal ∧ d'.meta = d.meta := by
  unfold mergeDiskTables at h
  split at h
  · exact absurd h (by simp)
  · split at h
    · exact absurd h (by simp)
    · split at h
      · rw [Except.ok.injEq] at h
        subst h
        exact ⟨rfl, rfl⟩
      · exact absurd h (by simp)

theorem lsmMaybeMerge_preserve (t2 : LSMTree) :
    (lsmMaybeMerge t2).1.disk.wal = t2.disk.wal ∧
    (lsmMaybeMerge t2).1.memTable = t2.memTable ∧
    (MetaInv t2 → MetaInv (lsmMaybeMerge t2).1) := by
  unfold lsmMaybeMerge
  split
  · cases hm : mergeDiskTables t2.disk
      (t2.maxDiskTableIndex - t2.diskTableNum + 1)
      (t2.maxDiskTableIndex - t2.diskTableNum + 1 + 1)
      t2.sparseKeyDistance with
    | error e => exact ⟨rfl, rfl, fun h => h⟩
    | ok d' =>
      obtain ⟨hw, _⟩ := mergeDiskTables_ok_fields hm
      exact ⟨hw, rfl, fun _ => rfl⟩
  · exact ⟨rfl, rfl, fun h => h⟩

theorem WalInv_lsmMaybeMerge {t2 : LSMTree} (h : WalInv t2) :
    WalInv (lsmMaybeMerge t2).1 := by
  obtain ⟨l, hvl, hwal, hmem⟩ := h
  obtain ⟨hw, hmt, _⟩ := lsmMaybeMerge_preserve t2
  exact ⟨l, hvl, hw.trans hwal, hmt.trans hmem⟩

/-- Physical realisability of one operation: `Put` validates its own
sizes, a `Delete`d key must fit the 64-bit length field (true of every
Go byte slice). -/
def OpValid : Op → Prop
  | .put _ _ => True
  | .del k => 16 + k.length < 2 ^ 64

theorem WalInv_MetaInv_applyOp {t : LSMTree} (op : Op) (hop : OpValid op)
    (hw : WalInv t) (hm : MetaInv t) :
    WalInv (applyOp t op) ∧ MetaInv (applyOp t op) := by
  cases op with
  | put k v =>
    show WalInv (lsmPut k v t).1 ∧ MetaInv (lsmPut k v t).1
    unfold lsmPut
    by_cases h1 : k.length = 0
    · rw [if_pos h1]; exact ⟨hw, hm⟩
    · rw [if_neg h1]
      by_cases h2 : k.length > MaxKeySize
      · rw [if_pos h2]; exact ⟨hw, hm⟩
      · rw [if_neg h2]
        by_cases h3 : v.length = 0
        · rw [if_pos h3]; exact ⟨hw, hm⟩
        · rw [if_neg h3]
          by_cases h4 : v.length > MaxValueSize
          · rw [if_pos h4]; exact ⟨hw, hm⟩
          · rw [if_neg h4]
            have hval : RecordValid (k, some v) := by
              constructor
              · simp only [Option.getD_some]
                simp only [MaxKeySize] at h2
                simp only [MaxValueSize] at h4
                omega
              · simp only [ne_eq, Option.some.injEq]
                intro hc
                rw [hc] at h3
                simp at h3
            have hw1 := WalInv_lsmMaybeFlush
              (WalInv_lsmWrite k v hval hw)
            have hm1 := MetaInv_lsmMaybeFlush (MetaInv_lsmWrite k v hm)
            exact ⟨WalInv_lsmMaybeMerge hw1,
              (lsmMaybeMerge_preserve _).2.2 hm1⟩
  | del k =>
    show WalInv (lsmDelete k t).1 ∧ MetaInv (lsmDelete k t).1
    constructor
    · obtain ⟨l, hvl, hwal, hmem⟩ := hw
      refine ⟨l ++ [(k, none)], ?_, ?_, ?_⟩
      · intro r hr
        rcases List.mem_append.mp hr with hr | hr
        · exact hvl r hr
        · rw [List.mem_singleton.mp hr]
          exact ⟨by simpa [OpValid] using hop, by simp⟩
      · show t.disk.wal ++ encodeRecord k none = _
        rw [List.flatMap_append, hwal]
        simp
      · show t.memTable.delete k = replayRecords (l ++ [(k, none)])
        unfold replayRecords
        rw [List.foldl_append, ← replayRecords, ← hmem]
        rfl
    · exact hm

theorem WalInv_MetaInv_applyOps (ops : List Op) :
    ∀ (t : LSMTree), (∀ op ∈ ops, OpValid op) → WalInv t → MetaInv t →
    WalInv (applyOps t ops) ∧ MetaInv (applyOps t ops) := by
  induction ops with
  | nil => exact fun t _ hw hm => ⟨hw, hm⟩
  | cons op rest ih =>
    intro t hops hw hm
    obtain ⟨hw1, hm1⟩ := WalInv_MetaInv_applyOp op (hops op (by simp))
      hw hm
    exact ih (applyOp t op) (fun o ho => hops o (by simp [ho])) hw1 hm1

/-- The engine state `Open` on the persisted directory of `s` yields:
same directory, same memtable, same counters, default options. -/
def reopenedOf (s : LSMTree) : LSMTree :=
  { disk := s.disk, memTable := s.memTable,
    diskTableNum := s.diskTableNum,
    maxDiskTableIndex := s.maxDiskTableIndex,
    memTableThreshold := defaultMemTableThreshold,
    diskTableNumThreshold := defaultDiskTableNumThreshold,
    sparseKeyDistance := defaultSparseKeyDistance }

theorem openTree_of_inv {s : LSMTree} (hw : WalInv s) (hm : MetaInv s) :
    openTree s.disk = some (reopenedOf s) := by
  obtain ⟨l, hvl, hwal, hmem⟩ := hw
  unfold openTree openTreeWith loadMemTable
  rw [hwal, loadMemTableGo_flatMap l newMemTable hvl]
  dsimp only
  rw [show l.foldl replayRecord newMemTable = replayRecords l from rfl,
    ← hmem]
  unfold MetaInv at hm
  rw [hm]
  rfl

/-- C3: after any operation sequence on an engine opened over a fresh
directory (any option values), reopening the directory succeeds and
reconstructs the memtable and counters exactly, so every `Get` outcome
(value, exists flag and error alike) is preserved bit-for-bit. -/
theorem durability_roundtrip (memThr numThr : Int) (dist : Nat)
    (ops : List Op) (hops : ∀ op ∈ ops, OpValid op) :
    openTree (applyOps (initTree memThr numThr dist) ops).disk =
      some (reopenedOf (applyOps (initTree memThr numThr dist) ops)) ∧
    ∀ key : Bytes,
      lsmGet (reopenedOf (applyOps (initTree memThr numThr dist) ops))
        key = lsmGet (applyOps (initTree memThr numThr dist) ops) key := by
  obtain ⟨hw, hm⟩ := WalInv_MetaInv_applyOps ops
    (initTree memThr numThr dist) hops ⟨[], by simp, rfl, rfl⟩ rfl
  exact ⟨openTree_of_inv hw hm, fun key => rfl⟩

/-- Witness for C3: put `[1] ↦ [2]` then delete `[1]`, reopen. -/
theorem durability_roundtrip_witness :
    OpValid (Op.del [1]) ∧
    openTree (applyOps (initTree 64000 10 128)
        [Op.put [1] [2], Op.del [1]]).disk =
      some (reopenedOf (applyOps (initTree 64000 10 128)
        [Op.put [1] [2], Op.del [1]])) :=
  ⟨by norm_num [OpValid],
    (durability_roundtrip 64000 10 128 [Op.put [1] [2], Op.del [1]]
      (by intro op hop
          simp only [List.mem_cons, List.not_mem_nil, or_false] at hop
          rcases hop with rfl | rfl
          · trivial
          · norm_num [OpValid])).1⟩

end Lsmtree
